import Mathlib

/-!
Shallow embedding of the per-step marshaling core of the LAMMPS pair style
`pair_phin.cpp` (class `PairPHIN`), together with the host-facing checks of
`PairPHIN::init_style`.

Embedding conventions:
* C `double`/`float` values are embedded as `ℚ`.  All claims settled here are
  control-flow, indexing and exact-formula claims, which do not depend on
  floating-point rounding of the individual arithmetic operations.
* Host arrays (`x`, `f`, `tag`, `type`, `eatom`, ...) are embedded as total
  functions from `ℕ`; coordinate indices 0,1,2 are plain naturals.
* `error->all(...)` terminates the step; `PairPHIN::compute` is therefore
  embedded as a function into `Except PhinError ComputeResult`, returning
  `Except.error` exactly where the source calls `error->all`, and returning
  the final contents of the written host arrays on success.
* The TorchScript model (`model.forward`) is an opaque external collaborator:
  it is passed in as a function `GraphInput → ModelOutput`.  The named outputs
  `forces`, `total_energy`, `atomic_energy` are fetched unconditionally by the
  source, so they are total fields; `uncertainties` is also fetched
  unconditionally by `output.at(...)`, which throws when the key is missing —
  this is modeled by an `Option` field whose `none` case maps to an error.
  `virial` is fetched only under `vflag`; it is kept total here (a model run
  with `vflag` unset never reads it); its leading batch index `[0]` is dropped.
* Neighbor-list entries are the values `j` after `j &= NEIGHMASK` (the mask
  strips flag bits and is identity on the stored index), so `firstneigh`
  directly holds atom indices.
-/

namespace PairPHIN

/-- Host-engine state visible to one `PairPHIN::compute` call (and to
`init_style`).  `ilist` is the neighbor-list ordering of the local atoms; its
length is `inum`, asserted equal to `nlocal` in the source, so the source's
loops over `inum` and over `nlocal` are both loops over `ilist` here. -/
structure PhinState where
  /-- atom positions `atom->x`, including ghost atoms -/
  x : ℕ → ℕ → ℚ
  /-- atom forces `atom->f` (overwritten by the result scatter) -/
  f : ℕ → ℕ → ℚ
  /-- atom IDs `atom->tag` (1-based, stable) -/
  tag : ℕ → ℕ
  /-- atom types `atom->type` (1-based) -/
  typ : ℕ → ℕ
  /-- LAMMPS type → model atom-type table built by `PairPHIN::coeff` -/
  type_mapper : ℕ → ℤ
  /-- host flag `atom->tag_enable` -/
  tag_enable : Bool
  /-- host flag `force->newton_pair` -/
  newton_pair : Bool
  /-- neighbor list `list->ilist`, the local atoms in neighbor-list order -/
  ilist : List ℕ
  /-- per-atom neighbor lists `list->firstneigh[i]` (entries already masked with `NEIGHMASK`) -/
  firstneigh : ℕ → List ℕ
  /-- box lower bounds `domain->boxlo` -/
  boxlo : ℕ → ℚ
  /-- box upper bounds `domain->boxhi` -/
  boxhi : ℕ → ℚ
  /-- tilt factor `domain->xy` -/
  xy : ℚ
  /-- tilt factor `domain->xz` -/
  xz : ℚ
  /-- tilt factor `domain->yz` -/
  yz : ℚ
  /-- cutoff radius, read from the model metadata `r_max` in `coeff` -/
  cutoff : ℚ
  /-- flag `eflag_atom` as set by `ev_init` -/
  eflag_atom : Bool
  /-- flag `vflag`, the virial argument of `compute` -/
  vflag : Bool
  /-- flag `vflag_atom` as set by `ev_init` -/
  vflag_atom : Bool
  /-- per-atom energy array `eatom` -/
  eatom : ℕ → ℚ

/-- The fatal-error exits of `init_style` and `compute` (each an
`error->all(FLERR, ...)` call site, plus the throw of the unconditional
`output.at("uncertainties")` lookup). -/
inductive PhinError where
  /-- message "Pair style PHIN requires atom IDs" -/
  | missingAtomIDs
  /-- message "Pair style PHIN requires newton pair off" (and the per-step twin) -/
  | newtonOn
  /-- message "No Edges Detected" (the `edge_counter==0` branch) -/
  | noEdges
  /-- throw of `output.at` when the named output is missing -/
  | missingUncertainties
  /-- message "Pair style NEQUIP does not support per-atom virial" -/
  | perAtomVirial
  deriving DecidableEq

/-- Embedding of `PairPHIN::init_style`: requires atom IDs, then requires newton pair off
(the neighbor-list request in between has no effect modeled here). -/
def init_style (s : PhinState) : Except PhinError Unit :=
  if s.tag_enable = false then Except.error PhinError.missingAtomIDs
  else if s.newton_pair = true then Except.error PhinError.newtonOn
  else Except.ok ()

/-- The 3×3 cell matrix assembled by `compute` from the box bounds and tilt
factors (`cell[0][0]=xhi-xlo`, `cell[1][0]=xy`, `cell[1][1]=yhi-ylo`,
`cell[2][0]=xz`, `cell[2][1]=yz`, `cell[2][2]=zhi-zlo`; the `torch::zeros`
initialization leaves every other entry 0).  The source performs no
validation of these values. -/
def cellMatrix (s : PhinState) : ℕ → ℕ → ℚ := fun r c =>
  match r, c with
  | 0, 0 => s.boxhi 0 - s.boxlo 0
  | 1, 0 => s.xy
  | 1, 1 => s.boxhi 1 - s.boxlo 1
  | 2, 0 => s.xz
  | 2, 1 => s.yz
  | 2, 2 => s.boxhi 2 - s.boxlo 2
  | _, _ => 0

/-- Determinant of a 3×3 matrix given as a function. -/
def det3 (m : ℕ → ℕ → ℚ) : ℚ :=
  m 0 0 * (m 1 1 * m 2 2 - m 1 2 * m 2 1)
  - m 0 1 * (m 1 0 * m 2 2 - m 1 2 * m 2 0)
  + m 0 2 * (m 1 0 * m 2 1 - m 1 1 * m 2 0)

/-- Matrix inverse of a 3×3 matrix (`cell_tensor.inverse()`), via the
adjugate-over-determinant formula; agrees with the true inverse whenever the
determinant is nonzero (the source's tensor inverse throws on a singular
matrix, a case no claim exercises). -/
def inv3 (m : ℕ → ℕ → ℚ) : ℕ → ℕ → ℚ := fun r c =>
  match r, c with
  | 0, 0 => (m 1 1 * m 2 2 - m 1 2 * m 2 1) / det3 m
  | 0, 1 => -(m 0 1 * m 2 2 - m 0 2 * m 2 1) / det3 m
  | 0, 2 => (m 0 1 * m 1 2 - m 0 2 * m 1 1) / det3 m
  | 1, 0 => -(m 1 0 * m 2 2 - m 1 2 * m 2 0) / det3 m
  | 1, 1 => (m 0 0 * m 2 2 - m 0 2 * m 2 0) / det3 m
  | 1, 2 => -(m 0 0 * m 1 2 - m 0 2 * m 1 0) / det3 m
  | 2, 0 => (m 1 0 * m 2 1 - m 1 1 * m 2 0) / det3 m
  | 2, 1 => -(m 0 0 * m 2 1 - m 0 1 * m 2 0) / det3 m
  | 2, 2 => (m 0 0 * m 1 1 - m 0 1 * m 1 0) / det3 m
  | _, _ => 0

/-- Transposed inverse `cell_inv = cell_tensor.inverse().transpose(0,1)`. -/
def cellInvT (s : PhinState) : ℕ → ℕ → ℚ := fun r c => inv3 (cellMatrix s) c r

/-- Embedding of `std::round`: nearest integer, halfway cases away from zero. -/
def cround (q : ℚ) : ℤ :=
  if q < 0 then -Int.floor (-q + 1/2) else Int.floor (q + 1/2)

/-- The tag-ordered position buffer `pos` filled by the first loop of
`compute`: `pos[tag[i]-1] = x[i]` for each `i` in `ilist`, over a
`torch::zeros` initialization. -/
def densePos (s : PhinState) : ℕ → ℕ → ℚ :=
  s.ilist.foldl (fun acc i => Function.update acc (s.tag i - 1) (fun c => s.x i c))
    (fun _ _ => 0)

/-- The inverse map `tag2i` filled by the same loop:
`tag2i[tag[i]-1] = i` for each `i` in `ilist` (over a zero-initialized
`std::vector<int>`). -/
def buildTag2i (s : PhinState) : ℕ → ℕ :=
  s.ilist.foldl (fun acc i => Function.update acc (s.tag i - 1) i) (fun _ => 0)

/-- The tag-ordered mapped-type buffer `tag2type` filled by the same loop:
`tag2type[tag[i]-1] = type_mapper[type[i]]`. -/
def denseTypes (s : PhinState) : ℕ → ℤ :=
  s.ilist.foldl (fun acc i => Function.update acc (s.tag i - 1) (s.type_mapper (s.typ i)))
    (fun _ => 0)

/-- Displacement `periodic_shift = x[j] - pos[jtag-1]`: Cartesian displacement between the
neighbor's actual (possibly ghost-image) position and the canonical
dense-ordered position stored for the same tag. -/
def periodicShift (s : PhinState) (j k : ℕ) : ℚ :=
  s.x j k - densePos s (s.tag j - 1) k

/-- Component `c` of `cell_inv.matmul(periodic_shift_tensor)` for neighbor
`j`: the fractional-coordinate projection of the displacement. -/
def cellShiftVal (s : PhinState) (j c : ℕ) : ℚ :=
  cellInvT s c 0 * periodicShift s j 0
  + cellInvT s c 1 * periodicShift s j 1
  + cellInvT s c 2 * periodicShift s j 2

/-- Squared distance `rsq = dx*dx + dy*dy + dz*dz` for the pair `(i, j)`, computed from the
actual positions `x[i]`, `x[j]`. -/
def rsqOf (s : PhinState) (i j : ℕ) : ℚ :=
  (s.x i 0 - s.x j 0) * (s.x i 0 - s.x j 0)
  + (s.x i 1 - s.x j 1) * (s.x i 1 - s.x j 1)
  + (s.x i 2 - s.x j 2) * (s.x i 2 - s.x j 2)

/-- One emitted edge: `edges[2k] = itag-1`, `edges[2k+1] = jtag-1`, and the
three rounded cell-shift components stored in `edge_cell_shifts`. -/
structure EdgeRec where
  src : ℕ
  dst : ℕ
  shift : ℕ → ℚ

/-- The edge record the inner loop body stores for the pair `(i, j)`:
endpoints are the dense node indices `tag[i]-1`, `tag[j]-1`, and the shift is
`std::round` of each component of `cell_inv.matmul(periodic_shift)` (stored
back into a float slot, hence `ℚ`-valued here). -/
def edgeFor (s : PhinState) (i j : ℕ) : EdgeRec where
  src := s.tag i - 1
  dst := s.tag j - 1
  shift := fun c => ((cround (cellShiftVal s j c) : ℤ) : ℚ)

/-- The edge-building double loop of `compute` (lines 406–451): for each local
atom `i` in neighbor-list order and each masked neighbor-list entry `j`, an
edge is appended exactly when `rsq < cutoff*cutoff`.  The result is already
the compacted length-`edge_counter` list that the shortening loop copies into
the tensors. -/
def buildEdges (s : PhinState) : List EdgeRec :=
  s.ilist.flatMap fun i =>
    (s.firstneigh i).filterMap fun j =>
      if rsqOf s i j < s.cutoff * s.cutoff then some (edgeFor s i j) else none

/-- The named-tensor input dictionary handed to `model.forward`. -/
structure GraphInput where
  pos : ℕ → ℕ → ℚ
  edge_index : List (ℕ × ℕ)
  edge_cell_shift : List (ℕ → ℚ)
  cell : ℕ → ℕ → ℚ
  atom_types : ℕ → ℤ

/-- Assembly of the model input from the per-step buffers (the `c10::Dict`
built at lines 484–489, after the shortening loop). -/
def graphInput (s : PhinState) : GraphInput where
  pos := densePos s
  edge_index := (buildEdges s).map fun e => (e.src, e.dst)
  edge_cell_shift := (buildEdges s).map fun e => e.shift
  cell := cellMatrix s
  atom_types := denseTypes s

/-- The named outputs read from the model response.  `forces`,
`total_energy` and `atomic_energy` are always fetched; `uncertainties` is
optional in the response bundle (but fetched unconditionally by the source);
`virial` is fetched only under `vflag` and its batch index is dropped. -/
structure ModelOutput where
  forces : ℕ → ℕ → ℚ
  total_energy : ℚ
  atomic_energy : ℕ → ℚ
  virial : ℕ → ℕ → ℚ
  uncertainties : Option (ℕ → ℚ)

/-- The virial flatten of lines 523–528: LAMMPS order
(xx, yy, zz, xy, xz, yz). -/
def flattenVirial (v : ℕ → ℕ → ℚ) : ℕ → ℚ
  | 0 => v 0 0
  | 1 => v 1 1
  | 2 => v 2 2
  | 3 => v 0 1
  | 4 => v 0 2
  | 5 => v 1 2
  | _ => 0

/-- The host-visible outputs of one successful `compute` call: the final
contents of the written host arrays and scalars. -/
structure ComputeResult where
  f : ℕ → ℕ → ℚ
  eng_vdwl : ℚ
  eatom : ℕ → ℚ
  virial : ℕ → ℚ
  uncertainties : ℕ → ℚ

/-- The scatter loop pattern of lines 548–556: for `itag = 0 .. n-1` write
`value itag` into slot `t2i itag` of the target array. -/
def scatterUpd {β : Type} (t2i : ℕ → ℕ) (value : ℕ → β) (init : ℕ → β) (n : ℕ) :
    ℕ → β :=
  (List.range n).foldl (fun acc k => Function.update acc (t2i k) (value k)) init

/-- Embedding of `PairPHIN::compute`, in source order:
1. the `newton_pair` check (line 317) — fatal;
2. the `nedges==0` check (line 338) prints a message and requests a timer
   timeout but does not abort, so it does not affect the returned value and
   is not modeled;
3. position/tag/type gathering, cell assembly, edge building;
4. the `edge_counter==0` check (line 458) — fatal, before the model call;
5. the model call and the named-output fetches; a missing `uncertainties`
   output makes `output.at` throw (line 515);
6. the global-virial flatten under `vflag` and the fatal `vflag_atom` check;
7. the result scatter: forces always assigned, `eatom` only under
   `eflag_atom`, the per-atom `uncertainties` buffer always (its previous
   contents are a freshly grown scratch buffer, modeled as zeros). -/
def computeStep (s : PhinState) (model : GraphInput → ModelOutput) :
    Except PhinError ComputeResult :=
  if s.newton_pair = true then Except.error PhinError.newtonOn
  else if (buildEdges s).isEmpty = true then Except.error PhinError.noEdges
  else
    let out := model (graphInput s)
    match out.uncertainties with
    | none => Except.error PhinError.missingUncertainties
    | some unc =>
      if s.vflag_atom = true then Except.error PhinError.perAtomVirial
      else
        let n := s.ilist.length
        let t2i := buildTag2i s
        Except.ok
          { f := scatterUpd t2i (fun k => fun c => out.forces k c) s.f n
            eng_vdwl := out.total_energy
            eatom :=
              if s.eflag_atom = true then
                scatterUpd t2i (fun k => out.atomic_energy k) s.eatom n
              else s.eatom
            virial :=
              if s.vflag = true then flattenVirial out.virial else fun _ => 0
            uncertainties := scatterUpd t2i (fun k => unc k) (fun _ => 0) n }

/-- Whether a `compute` outcome is a fatal error. -/
def isErrB : Except PhinError ComputeResult → Bool
  | Except.error _ => true
  | Except.ok _ => false

/-- Whether a `compute` outcome is a success. -/
def isOkB (e : Except PhinError ComputeResult) : Bool := !isErrB e

/-- Whether an `init_style` outcome is a fatal error. -/
def isErrU : Except PhinError Unit → Bool
  | Except.error _ => true
  | Except.ok _ => false

/-- Placeholder result used to project a `ComputeResult` out of an
`Except`. -/
def defaultResult : ComputeResult where
  f := fun _ _ => 0
  eng_vdwl := 0
  eatom := fun _ => 0
  virial := fun _ => 0
  uncertainties := fun _ => 0

/-- Projection of the success payload of a `compute` outcome. -/
def resultD : Except PhinError ComputeResult → ComputeResult
  | Except.ok r => r
  | Except.error _ => defaultResult

/-! ### Helper lemmas on the update-fold pattern -/

/-- In a left fold of keyed `Function.update`s, a slot that some list element
keys is finally held by a (last) list element keying that slot. -/
theorem foldl_update_wins {γ β : Type} (key : γ → ℕ) (val : γ → β) :
    ∀ (l : List γ) (init : ℕ → β) (a : ℕ), (∃ g ∈ l, key g = a) →
      ∃ g ∈ l, key g = a ∧
        l.foldl (fun acc g => Function.update acc (key g) (val g)) init a = val g := by
  intro l
  induction l using List.reverseRecOn with
  | nil => intro init a h; simp at h
  | append_singleton l g0 ih =>
    intro init a h
    rw [List.foldl_append]
    simp only [List.foldl_cons, List.foldl_nil]
    by_cases hk : key g0 = a
    · refine ⟨g0, by simp, hk, ?_⟩
      rw [← hk, Function.update_same]
    · have h' : ∃ g ∈ l, key g = a := by
        obtain ⟨g, hg, hkey⟩ := h
        rcases List.mem_append.mp hg with h1 | h2
        · exact ⟨g, h1, hkey⟩
        · rw [List.mem_singleton.mp h2] at hkey
          exact absurd hkey hk
      obtain ⟨g, hg, hkey, hval⟩ := ih init a h'
      refine ⟨g, List.mem_append_left _ hg, hkey, ?_⟩
      rw [Function.update_noteq (fun hh => hk hh.symm)]
      exact hval

/-- Round trip `d → tag2i d → tag`: if every local tag is at least 1 and some
local atom carries tag `d+1`, then the atom stored in slot `d` of `tag2i`
carries tag `d+1`. -/
theorem tag2i_roundtrip (s : PhinState) (d : ℕ)
    (h1 : ∀ i ∈ s.ilist, 1 ≤ s.tag i)
    (h2 : ∃ i ∈ s.ilist, s.tag i = d + 1) :
    s.tag (buildTag2i s d) = d + 1 := by
  have h2' : ∃ i ∈ s.ilist, s.tag i - 1 = d := by
    obtain ⟨i, hi, ht⟩ := h2
    exact ⟨i, hi, by omega⟩
  obtain ⟨g, hg, hkey, hval⟩ :=
    foldl_update_wins (fun i => s.tag i - 1) (fun i => i) s.ilist (fun _ => 0) d h2'
  have hb : buildTag2i s d = g := hval
  have hge := h1 g hg
  rw [hb]
  omega

/-- Evaluating the scatter fold at a written slot: if the target map is
injective below `n`, slot `t2i d` finally holds `value d`. -/
theorem scatterUpd_eq {β : Type} (t2i : ℕ → ℕ) (value : ℕ → β) (init : ℕ → β) :
    ∀ (n : ℕ), (∀ a, a < n → ∀ b, b < n → t2i a = t2i b → a = b) →
      ∀ d, d < n → scatterUpd t2i value init n (t2i d) = value d := by
  intro n
  induction n with
  | zero => intro _ d hd; omega
  | succ n ih =>
    intro hinj d hd
    unfold scatterUpd
    rw [List.range_succ, List.foldl_append]
    simp only [List.foldl_cons, List.foldl_nil]
    by_cases hdn : d = n
    · subst hdn
      rw [Function.update_same]
    · have hne : t2i d ≠ t2i n := fun hh => hdn (hinj d (by omega) n (by omega) hh)
      rw [Function.update_noteq hne]
      exact ih (fun a ha b hb => hinj a (by omega) b (by omega)) d (by omega)

/-- Under the host guarantees (tags positive, tags of local atoms covering
`1..N`), `tag2i` is injective on dense node indices. -/
theorem tag2i_injOn (s : PhinState)
    (h1 : ∀ i ∈ s.ilist, 1 ≤ s.tag i)
    (h2 : ∀ e, e < s.ilist.length → ∃ i ∈ s.ilist, s.tag i = e + 1) :
    ∀ a, a < s.ilist.length → ∀ b, b < s.ilist.length →
      buildTag2i s a = buildTag2i s b → a = b := by
  intro a ha b hb hab
  have ra := tag2i_roundtrip s a h1 (h2 a ha)
  have rb := tag2i_roundtrip s b h1 (h2 b hb)
  rw [hab] at ra
  omega

/-- Elimination of a successful `compute` run into its branch conditions and
the exact result record. -/
theorem computeStep_ok (s : PhinState) (model : GraphInput → ModelOutput)
    (r : ComputeResult) (hok : computeStep s model = Except.ok r) :
    s.newton_pair = false ∧ (buildEdges s).isEmpty = false ∧ s.vflag_atom = false ∧
      ∃ unc, (model (graphInput s)).uncertainties = some unc ∧
        r = { f := scatterUpd (buildTag2i s)
                (fun k => fun c => (model (graphInput s)).forces k c) s.f s.ilist.length
              eng_vdwl := (model (graphInput s)).total_energy
              eatom :=
                if s.eflag_atom = true then
                  scatterUpd (buildTag2i s) (fun k => (model (graphInput s)).atomic_energy k)
                    s.eatom s.ilist.length
                else s.eatom
              virial :=
                if s.vflag = true then flattenVirial (model (graphInput s)).virial
                else fun _ => 0
              uncertainties :=
                scatterUpd (buildTag2i s) (fun k => unc k) (fun _ => 0) s.ilist.length } := by
  by_cases hn : s.newton_pair = true
  · unfold computeStep at hok
    rw [if_pos hn] at hok
    exact absurd hok (by simp)
  by_cases he : (buildEdges s).isEmpty = true
  · unfold computeStep at hok
    rw [if_neg hn, if_pos he] at hok
    exact absurd hok (by simp)
  rcases huncert : (model (graphInput s)).uncertainties with _ | unc
  · unfold computeStep at hok
    rw [if_neg hn, if_neg he] at hok
    simp only [huncert] at hok
    exact absurd hok (by simp)
  · by_cases hv : s.vflag_atom = true
    · unfold computeStep at hok
      rw [if_neg hn, if_neg he] at hok
      simp only [huncert] at hok
      rw [if_pos hv] at hok
      exact absurd hok (by simp)
    · unfold computeStep at hok
      rw [if_neg hn, if_neg he] at hok
      simp only [huncert] at hok
      rw [if_neg hv] at hok
      refine ⟨by simpa using hn, by simpa using he, by simpa using hv, unc, rfl, ?_⟩
      exact (Except.ok.inj hok).symm

/-! ### Concrete configurations used to witness the theorems -/

/-- Two atoms in a 10×10×10 orthogonal box: atom 0 (tag 1) at the origin,
atom 1 (tag 2) at (1,0,0); full neighbor list; cutoff 5. -/
def stTwo : PhinState where
  x := fun i c => if i = 1 ∧ c = 0 then 1 else 0
  f := fun _ _ => 0
  tag := fun i => i + 1
  typ := fun _ => 1
  type_mapper := fun _ => 0
  tag_enable := true
  newton_pair := false
  ilist := [0, 1]
  firstneigh := fun i => if i = 0 then [1] else if i = 1 then [0] else []
  boxlo := fun _ => 0
  boxhi := fun _ => 10
  xy := 0
  xz := 0
  yz := 0
  cutoff := 5
  eflag_atom := false
  vflag := false
  vflag_atom := false
  eatom := fun _ => 0

/-- A fixed model response with all named outputs present. -/
def outW : ModelOutput where
  forces := fun d c => (d : ℚ) * 10 + (c : ℚ) + 1
  total_energy := 7
  atomic_energy := fun d => (d : ℚ) + 3
  virial := fun r c => (r : ℚ) * 10 + (c : ℚ)
  uncertainties := some fun d => (d : ℚ) / 2

/-- A model backend that always returns `outW`. -/
def mW : GraphInput → ModelOutput := fun _ => outW

/-- The same response bundle with the auxiliary tensor absent. -/
def outNoU : ModelOutput := { outW with uncertainties := none }

/-- A model backend that never returns the auxiliary tensor. -/
def mNoU : GraphInput → ModelOutput := fun _ => outNoU

/-- Variant of `stTwo` with the second atom moved to (7,0,0): every pair is separated
beyond the cutoff, though the (skin-padded) neighbor list still lists it. -/
def stFar : PhinState := { stTwo with x := fun i c => if i = 1 ∧ c = 0 then 7 else 0 }

/-- Variant of `stTwo` with an inverted first box axis (`boxhi[0] - boxlo[0] = -10`). -/
def stNegBox : PhinState := { stTwo with boxhi := fun c => if c = 0 then -10 else 10 }

/-- Variant of `stTwo` with reverse force communication (newton pair) enabled. -/
def stNewton : PhinState := { stTwo with newton_pair := true }

/-- Variant of `stTwo` with the global virial requested. -/
def stVflag : PhinState := { stTwo with vflag := true }

/-- Variant of `stTwo` with the per-atom virial requested. -/
def stVatom : PhinState := { stTwo with vflag_atom := true }

/-! ### The claims -/

/-- C1: for every local atom `i` (in neighbor-list order) and every entry `j`
of its neighbor list, a directed edge is emitted iff the squared distance
between `i`'s position and `j`'s actual (possibly ghost-image) position is
strictly below the squared cutoff; every emitted edge arises this way, and
its endpoints are the dense node indices `tag(i)-1` and `tag(j)-1`. -/
theorem phin_c1 (s : PhinState) :
    (∀ i ∈ s.ilist, ∀ j ∈ s.firstneigh i,
        rsqOf s i j < s.cutoff * s.cutoff → edgeFor s i j ∈ buildEdges s) ∧
    (∀ e ∈ buildEdges s, ∃ i ∈ s.ilist, ∃ j ∈ s.firstneigh i,
        rsqOf s i j < s.cutoff * s.cutoff ∧ e = edgeFor s i j ∧
        e.src = s.tag i - 1 ∧ e.dst = s.tag j - 1) := by
  constructor
  · intro i hi j hj hq
    refine List.mem_flatMap.mpr ⟨i, hi, ?_⟩
    refine List.mem_filterMap.mpr ⟨j, hj, ?_⟩
    rw [if_pos hq]
  · intro e he
    obtain ⟨i, hi, hmem⟩ := List.mem_flatMap.mp he
    obtain ⟨j, hj, hfm⟩ := List.mem_filterMap.mp hmem
    by_cases hq : rsqOf s i j < s.cutoff * s.cutoff
    · rw [if_pos hq] at hfm
      obtain rfl : edgeFor s i j = e := Option.some.inj hfm
      exact ⟨i, hi, j, hj, hq, rfl, rfl, rfl⟩
    · rw [if_neg hq] at hfm
      exact Option.noConfusion hfm

/-- Witness for C1 at the concrete two-atom configuration: the pair (0,1) is
listed, within cutoff, and its edge is emitted. -/
theorem phin_c1_witness :
    (0 ∈ stTwo.ilist ∧ 1 ∈ stTwo.firstneigh 0 ∧
      rsqOf stTwo 0 1 < stTwo.cutoff * stTwo.cutoff) ∧
    edgeFor stTwo 0 1 ∈ buildEdges stTwo := by
  have h1 : (0 : ℕ) ∈ stTwo.ilist := by with_unfolding_all decide
  have h2 : (1 : ℕ) ∈ stTwo.firstneigh 0 := by with_unfolding_all decide
  have h3 : rsqOf stTwo 0 1 < stTwo.cutoff * stTwo.cutoff :=
    of_decide_eq_true (by with_unfolding_all rfl)
  exact ⟨⟨h1, h2, h3⟩, (phin_c1 stTwo).1 0 h1 1 h2 h3⟩

/-- C2: every emitted edge's stored shift is exactly the component-wise
`std::round` of the transposed inverse cell matrix applied to the Cartesian
displacement between the neighbor's actual (ghost) position and the canonical
dense-ordered position of the same tag; consequently every stored shift
component is (the embedding of) an integer. -/
theorem phin_c2 (s : PhinState) :
    (∀ i ∈ s.ilist, ∀ j ∈ s.firstneigh i, ∀ c,
        (edgeFor s i j).shift c = ((cround (cellShiftVal s j c) : ℤ) : ℚ)) ∧
    (∀ e ∈ buildEdges s, ∀ c, ∃ z : ℤ, e.shift c = (z : ℚ)) := by
  constructor
  · intro i _ j _ c
    rfl
  · intro e he c
    obtain ⟨i, hi, hmem⟩ := List.mem_flatMap.mp he
    obtain ⟨j, hj, hfm⟩ := List.mem_filterMap.mp hmem
    by_cases hq : rsqOf s i j < s.cutoff * s.cutoff
    · rw [if_pos hq] at hfm
      obtain rfl : edgeFor s i j = e := Option.some.inj hfm
      exact ⟨cround (cellShiftVal s j c), rfl⟩
    · rw [if_neg hq] at hfm
      exact Option.noConfusion hfm

/-- Witness for C2 at the two-atom configuration: the stored shift of the
emitted (0,1) edge matches the rounded projection formula, and its first
component evaluates to the integer 0. -/
theorem phin_c2_witness :
    edgeFor stTwo 0 1 ∈ buildEdges stTwo ∧
    (edgeFor stTwo 0 1).shift 0 = ((cround (cellShiftVal stTwo 1 0) : ℤ) : ℚ) ∧
    (edgeFor stTwo 0 1).shift 0 = ((0 : ℤ) : ℚ) := by
  have hmem : edgeFor stTwo 0 1 ∈ buildEdges stTwo := by
    have hlist : buildEdges stTwo = [edgeFor stTwo 0 1, edgeFor stTwo 1 0] := by
      with_unfolding_all rfl
    rw [hlist]
    exact List.mem_cons_self _ _
  refine ⟨hmem, (phin_c2 stTwo).1 0 (by with_unfolding_all decide) 1
    (by with_unfolding_all decide) 0, ?_⟩
  with_unfolding_all rfl

/-- C3: under the host guarantees (every local tag positive, tags of local
atoms covering `1..N`), the round trip dense index → host-local index → tag
gives back `d+1` (i.e. `d` after the 1-subtraction); and on any successful
compute call the result scatter puts model node `d`'s force exactly into that
host atom (the one whose tag is `d+1`). -/
theorem phin_c3 (s : PhinState) (d : ℕ) (hd : d < s.ilist.length)
    (h1 : ∀ i ∈ s.ilist, 1 ≤ s.tag i)
    (h2 : ∀ e, e < s.ilist.length → ∃ i ∈ s.ilist, s.tag i = e + 1) :
    s.tag (buildTag2i s d) = d + 1 ∧
    ∀ (model : GraphInput → ModelOutput) (r : ComputeResult),
      computeStep s model = Except.ok r →
      ∀ c, r.f (buildTag2i s d) c = (model (graphInput s)).forces d c := by
  refine ⟨tag2i_roundtrip s d h1 (h2 d hd), ?_⟩
  intro model r hok c
  obtain ⟨-, -, -, unc, -, hr⟩ := computeStep_ok s model r hok
  rw [hr]
  have hs := scatterUpd_eq (buildTag2i s)
    (fun k => fun c => (model (graphInput s)).forces k c) s.f s.ilist.length
    (tag2i_injOn s h1 h2) d hd
  exact congrFun hs c

/-- Witness for C3 at the two-atom configuration with the always-defined
model: the round trip holds at `d = 1` and the scattered force at the atom of
tag 2 equals the model's node-1 force. -/
theorem phin_c3_witness :
    stTwo.tag (buildTag2i stTwo 1) = 2 ∧
    (resultD (computeStep stTwo mW)).f (buildTag2i stTwo 1) 0 = 11 := by
  have hok : computeStep stTwo mW = Except.ok (resultD (computeStep stTwo mW)) := by
    with_unfolding_all rfl
  have h := phin_c3 stTwo 1 (by with_unfolding_all decide)
    (by intro i hi; fin_cases hi <;> simp [stTwo])
    (by
      intro e he
      have he2 : e < 2 := by simpa [stTwo] using he
      interval_cases e
      · exact ⟨0, by with_unfolding_all decide, by simp [stTwo]⟩
      · exact ⟨1, by with_unfolding_all decide, by simp [stTwo]⟩)
  refine ⟨h.1, ?_⟩
  have h2 := h.2 mW (resultD (computeStep stTwo mW)) hok 0
  rw [h2]
  show outW.forces 1 0 = 11
  norm_num [outW]

/-- C4: when newton pair is off and no atom pair passes the cutoff filter,
`compute` aborts with the fatal "No Edges Detected" error before invoking the
model — the outcome is this error for every model backend, never a
zero-filled success. -/
theorem phin_c4 (s : PhinState) (model : GraphInput → ModelOutput)
    (hn : s.newton_pair = false) (he : buildEdges s = []) :
    computeStep s model = Except.error PhinError.noEdges := by
  unfold computeStep
  rw [if_neg (by simp [hn]), if_pos (by simp [he])]

/-- Witness for C4: in the beyond-cutoff configuration (atoms 7 apart,
cutoff 5) no edge qualifies and `compute` fails with the no-edges error. -/
theorem phin_c4_witness :
    computeStep stFar mW = Except.error PhinError.noEdges :=
  phin_c4 stFar mW rfl (by with_unfolding_all rfl)

/-- C5, counterexample: with an inverted first box axis (axis length −10) the
cell construction does not fail — the lattice matrix is built with a
non-positive diagonal entry and the whole compute call still succeeds.  No
axis-length validation exists in the source. -/
theorem phin_c5_counterexample :
    stNegBox.boxhi 0 - stNegBox.boxlo 0 ≤ 0 ∧
    cellMatrix stNegBox 0 0 ≤ 0 ∧
    isOkB (computeStep stNegBox mW) = true :=
  ⟨of_decide_eq_true (by with_unfolding_all rfl),
   of_decide_eq_true (by with_unfolding_all rfl),
   by with_unfolding_all rfl⟩

/-- C5, amended: the cell-geometry construction performs no axis-length
validation, and the success of a compute step depends only on the newton
flag, the qualifying-edge count, the presence of the model's named outputs
and the per-atom-virial flag — never on the signs of the box axis lengths. -/
theorem phin_c5 (s : PhinState) (model : GraphInput → ModelOutput)
    (hn : s.newton_pair = false)
    (he : (buildEdges s).isEmpty = false)
    (hu : (model (graphInput s)).uncertainties.isSome = true)
    (hv : s.vflag_atom = false) :
    isOkB (computeStep s model) = true := by
  obtain ⟨unc, hunc⟩ := Option.isSome_iff_exists.mp hu
  unfold computeStep
  rw [if_neg (by simp [hn]), if_neg (by simp [he])]
  simp only [hunc]
  rw [if_neg (by simp [hv])]
  rfl

/-- Witness for the amended C5 at the inverted-axis configuration. -/
theorem phin_c5_witness :
    (buildEdges stNegBox).isEmpty = false ∧ isOkB (computeStep stNegBox mW) = true :=
  ⟨by with_unfolding_all rfl,
   phin_c5 stNegBox mW rfl (by with_unfolding_all rfl) rfl rfl⟩

/-- C6: on any successful compute call with the virial requested, the
6-component output is the model's 3×3 tensor flattened exactly in the order
(xx, yy, zz, xy, xz, yz), with no sign change or index swap. -/
theorem phin_c6 (s : PhinState) (model : GraphInput → ModelOutput)
    (r : ComputeResult) (hv : s.vflag = true)
    (hok : computeStep s model = Except.ok r) :
    r.virial 0 = (model (graphInput s)).virial 0 0 ∧
    r.virial 1 = (model (graphInput s)).virial 1 1 ∧
    r.virial 2 = (model (graphInput s)).virial 2 2 ∧
    r.virial 3 = (model (graphInput s)).virial 0 1 ∧
    r.virial 4 = (model (graphInput s)).virial 0 2 ∧
    r.virial 5 = (model (graphInput s)).virial 1 2 := by
  obtain ⟨-, -, -, unc, -, hr⟩ := computeStep_ok s model r hok
  subst hr
  simp [hv, flattenVirial]

/-- Witness for C6 at the two-atom configuration with the virial flag set:
the fixed model's `virial[0][1]` lands in output slot 3. -/
theorem phin_c6_witness :
    stVflag.vflag = true ∧ (resultD (computeStep stVflag mW)).virial 3 = 1 := by
  have hok : computeStep stVflag mW = Except.ok (resultD (computeStep stVflag mW)) := by
    with_unfolding_all rfl
  have h := phin_c6 stVflag mW (resultD (computeStep stVflag mW)) rfl hok
  refine ⟨rfl, ?_⟩
  rw [h.2.2.2.1]
  norm_num [mW, outW]

/-- C7: whenever the per-atom virial is requested, `compute` ends in a fatal
error (for every state and every model backend); no per-atom stress values
are ever produced. -/
theorem phin_c7 (s : PhinState) (model : GraphInput → ModelOutput)
    (hva : s.vflag_atom = true) :
    isErrB (computeStep s model) = true := by
  unfold computeStep
  by_cases hn : s.newton_pair = true
  · rw [if_pos hn]; rfl
  rw [if_neg hn]
  by_cases he : (buildEdges s).isEmpty = true
  · rw [if_pos he]; rfl
  rw [if_neg he]
  rcases hu : (model (graphInput s)).uncertainties with _ | unc
  · simp only [hu]
    rfl
  · simp only [hu]
    rw [if_pos hva]
    rfl

/-- Witness for C7 at the two-atom configuration with `vflag_atom` set. -/
theorem phin_c7_witness : isErrB (computeStep stVatom mW) = true :=
  phin_c7 stVatom mW rfl

/-- C8: with newton pair enabled the core refuses to proceed — `init_style`
ends in a fatal error, and every per-step compute call (for every model
backend) immediately ends in the newton error before any forces are
written. -/
theorem phin_c8 (s : PhinState) (model : GraphInput → ModelOutput)
    (hn : s.newton_pair = true) :
    isErrU (init_style s) = true ∧
    computeStep s model = Except.error PhinError.newtonOn := by
  constructor
  · unfold init_style
    by_cases ht : s.tag_enable = false
    · rw [if_pos ht]; rfl
    · rw [if_neg ht, if_pos hn]; rfl
  · unfold computeStep
    rw [if_pos hn]

/-- Witness for C8 at the newton-enabled configuration. -/
theorem phin_c8_witness :
    isErrU (init_style stNewton) = true ∧
    computeStep stNewton mW = Except.error PhinError.newtonOn :=
  phin_c8 stNewton mW rfl

/-- C9, counterexample: the auxiliary tensor is not optional.  On the very
same in-cutoff configuration, compute succeeds when the response bundle
contains `uncertainties` and aborts when it does not — so compute does not
complete "whether or not" the auxiliary tensor is present. -/
theorem phin_c9_counterexample :
    isOkB (computeStep stTwo mW) = true ∧
    computeStep stTwo mNoU = Except.error PhinError.missingUncertainties :=
  ⟨by with_unfolding_all rfl, by with_unfolding_all rfl⟩

/-- C9, amended: the per-node auxiliary scalar is a mandatory model output:
the per-step compute fetches `uncertainties` unconditionally, so whenever the
response bundle lacks it the step ends in a fatal error (it completes only
when the auxiliary tensor is present). -/
theorem phin_c9 (s : PhinState) (model : GraphInput → ModelOutput)
    (hu : (model (graphInput s)).uncertainties = none) :
    isErrB (computeStep s model) = true := by
  unfold computeStep
  by_cases hn : s.newton_pair = true
  · rw [if_pos hn]; rfl
  rw [if_neg hn]
  by_cases he : (buildEdges s).isEmpty = true
  · rw [if_pos he]; rfl
  rw [if_neg he]
  simp only [hu]
  rfl

/-- Witness for the amended C9: the uncertainty-less model backend makes the
in-cutoff two-atom step fail. -/
theorem phin_c9_witness : isErrB (computeStep stTwo mNoU) = true :=
  phin_c9 stTwo mNoU rfl

/-- C10: on every successful compute call (under the host tag guarantees),
each local atom's force components are overwritten by plain assignment with
the model's per-node force — the result is the model value regardless of the
prior force contents — and per-atom energy storage is written only when the
per-atom energy flag is set (it is untouched otherwise, and filled with the
model's per-node energies when set). -/
theorem phin_c10 (s : PhinState) (model : GraphInput → ModelOutput)
    (r : ComputeResult)
    (h1 : ∀ i ∈ s.ilist, 1 ≤ s.tag i)
    (h2 : ∀ e, e < s.ilist.length → ∃ i ∈ s.ilist, s.tag i = e + 1)
    (hok : computeStep s model = Except.ok r) :
    (∀ d, d < s.ilist.length → ∀ c,
        r.f (buildTag2i s d) c = (model (graphInput s)).forces d c) ∧
    (s.eflag_atom = false → r.eatom = s.eatom) ∧
    (s.eflag_atom = true → ∀ d, d < s.ilist.length →
        r.eatom (buildTag2i s d) = (model (graphInput s)).atomic_energy d) := by
  obtain ⟨-, -, -, unc, -, hr⟩ := computeStep_ok s model r hok
  subst hr
  refine ⟨?_, ?_, ?_⟩
  · intro d hd c
    exact congrFun (scatterUpd_eq (buildTag2i s)
      (fun k => fun c => (model (graphInput s)).forces k c) s.f s.ilist.length
      (tag2i_injOn s h1 h2) d hd) c
  · intro hef
    simp [hef]
  · intro hef d hd
    simp only [hef, if_pos]
    exact scatterUpd_eq (buildTag2i s)
      (fun k => (model (graphInput s)).atomic_energy k) s.eatom s.ilist.length
      (tag2i_injOn s h1 h2) d hd

/-- Witness for C10 at the two-atom configuration: atom 0's force is replaced
by the model's node-0 force (the zero prior force does not accumulate), and
with the per-atom energy flag off the energy array is untouched. -/
theorem phin_c10_witness :
    (resultD (computeStep stTwo mW)).f (buildTag2i stTwo 0) 1 = 2 ∧
    (resultD (computeStep stTwo mW)).eatom = stTwo.eatom := by
  have hok : computeStep stTwo mW = Except.ok (resultD (computeStep stTwo mW)) := by
    with_unfolding_all rfl
  have h := phin_c10 stTwo mW (resultD (computeStep stTwo mW))
    (by intro i hi; fin_cases hi <;> simp [stTwo])
    (by
      intro e he
      have he2 : e < 2 := by simpa [stTwo] using he
      interval_cases e
      · exact ⟨0, by with_unfolding_all decide, by simp [stTwo]⟩
      · exact ⟨1, by with_unfolding_all decide, by simp [stTwo]⟩)
    hok
  refine ⟨?_, h.2.1 rfl⟩
  have h1 := h.1 0 (by with_unfolding_all decide) 1
  rw [h1]
  show outW.forces 0 1 = 2
  norm_num [outW]

end PairPHIN
